import Mathlib

/-!
Shallow embedding of the enwiktionary-entries-by-language entry-index
builder (src/main.rs, src/types.rs, src/error.rs), together with proofs
about its specified behaviour.

Rust strings are modelled as lists of bytes (the code measures lengths in
bytes, and language codes may hold arbitrary bytes), so `Str` below is
`List Nat` with each element standing for one byte.
-/

/-- Byte strings: the model of Rust `str`/`String` data. -/
abbrev Str := List Nat

/-- Byte list of an ASCII string literal (for concrete test inputs). -/
def ascii (s : String) : Str := s.data.map Char.toNat

namespace Wikt

/-! ### LanguageCode (src/types.rs, lines 32-67)

`LanguageCode` stores a fixed 11-byte buffer (`[u8; LanguageCode::MAX]`,
zero-initialised) together with the byte length of the code. -/

/-- Model of the Rust struct `LanguageCode { data: [u8; 11], len: u8 }`.
`data` is the zero-padded buffer (always 11 bytes for constructed values). -/
structure LanguageCode where
  data : List Nat
  len : Nat
deriving DecidableEq, Repr

/-- `LanguageCode::MAX`, the capacity `"aaa-aaa-aaa".len()` = 11 bytes. -/
def LanguageCode.MAX : Nat := 11

/-- Model of `LanguageCode::new`: fails if the code exceeds 11 bytes,
otherwise copies the bytes into a zero-padded fixed buffer and records the
length. -/
def LanguageCode.new (code : Str) : Option LanguageCode :=
  if code.length > LanguageCode.MAX then
    none
  else
    some ⟨code ++ List.replicate (LanguageCode.MAX - code.length) 0, code.length⟩

/-- Model of `Deref for LanguageCode`: the stored text is the first `len`
bytes of the buffer. -/
def LanguageCode.asText (c : LanguageCode) : Str := c.data.take c.len

/-- Strict byte-lexicographic order on byte strings (the order of Rust
slices and arrays of `u8`). -/
def lexLt : Str → Str → Bool
  | [], [] => false
  | [], _ :: _ => true
  | _ :: _, [] => false
  | a :: s, b :: t => a < b || (a == b && lexLt s t)

/-- Reflexive byte-lexicographic order on byte strings. -/
def lexLe : Str → Str → Bool
  | [], _ => true
  | _ :: _, [] => false
  | a :: s, b :: t => a < b || (a == b && lexLe s t)

/-- Model of the derived `Ord` on `LanguageCode`: compare the `data` field
(two 11-byte buffers, elementwise lexicographic), then the `len` field. -/
def codeLt (a b : LanguageCode) : Prop :=
  lexLt a.data b.data = true ∨ (a.data = b.data ∧ a.len < b.len)

/-! ### Errors (src/error.rs) -/

/-- Model of the external `dump_parser::Error` (opaque to this crate). -/
structure DumpError where
  msg : Str
deriving DecidableEq, Repr

/-- Model of `error::Error` (src/error.rs, lines 7-24). The `cause` of
`IoError` is dropped (I/O is not modelled). -/
inductive Error where
  | ioError (action : Str) (path : Str)
  | invalidNameToCodeFormat (path : Str) (lineNumber : Nat) (line : Str)
  | invalidLanguageCode (path : Str) (lineNumber : Nat) (line : Str)
  | dumpParsingError (e : DumpError)
deriving DecidableEq, Repr

/-! ### Language name table (src/types.rs, lines 69-105)

`LanguageNameToCode::from_tsv_file` reads the file to a string, then over
`lines().enumerate()`, skips empty lines, splits each remaining line once
on the first tab (`splitn(2, '\t')`), builds the `LanguageCode`, and
collects the `(name, code)` pairs into a map, failing on the first bad
line. The model starts from the list of lines of the file. -/

/-- Model of `line.splitn(2, '\t')`: the bytes before the first tab
(byte 9), and—when a tab is present—the bytes after it (later tabs kept). -/
def splitFirstTab : Str → Str × Option Str
  | [] => ([], none)
  | b :: rest =>
    if b = 9 then ([], some rest)
    else
      let p := splitFirstTab rest
      (b :: p.1, p.2)

/-- The name field of a TSV line (bytes before the first tab). -/
def namePart (l : Str) : Str := (splitFirstTab l).1

/-- The code field of a TSV line (bytes after the first tab; `[]` when the
line has no tab). -/
def codePart (l : Str) : Str := ((splitFirstTab l).2).getD []

/-- Processing of one non-empty TSV line at zero-based index `i`
(src/types.rs, lines 84-101): split on the first tab; with no tab fail
with `InvalidNameToCodeFormat`, with an over-long code fail with
`InvalidLanguageCode`, both carrying the path, the 1-based line number and
the raw line. -/
def parseLine (path : Str) (i : Nat) (line : Str) :
    Except Error (Str × LanguageCode) :=
  match splitFirstTab line with
  | (name, some code) =>
    match LanguageCode.new code with
    | some c => .ok (name, c)
    | none => .error (.invalidLanguageCode path (i + 1) line)
  | (_, none) => .error (.invalidNameToCodeFormat path (i + 1) line)

/-- The association list collected by `from_tsv_file` (pairs in line
order). Models `lines().enumerate().filter(non-empty).map(parse).collect`:
`i` is the zero-based index of the next line; empty lines are skipped but
still advance the index; the first error aborts the whole load. -/
def loadFrom (path : Str) (i : Nat) : List Str → Except Error (List (Str × LanguageCode))
  | [] => .ok []
  | line :: rest =>
    if line = [] then loadFrom path (i + 1) rest
    else
      match parseLine path i line with
      | .error e => .error e
      | .ok p =>
        match loadFrom path (i + 1) rest with
        | .error e => .error e
        | .ok t => .ok (p :: t)

/-- Model of `LanguageNameToCode::from_tsv_file`, starting from the list
of lines of the file at `path`. -/
def fromTsvLines (path : Str) (lines : List Str) :
    Except Error (List (Str × LanguageCode)) :=
  loadFrom path 0 lines

/-- Model of `HashMap` lookup after collecting the pairs in order with
overwriting (`LanguageNameToCode::get`): the last pair inserted for the
name wins. -/
def tableGet (t : List (Str × LanguageCode)) (name : Str) : Option LanguageCode :=
  ((t.filter (fun p => p.1 == name)).getLast?).map (fun p => p.2)

/-- The `LanguageCode` built from a well-formed TSV line (total helper;
meaningful when construction succeeds). -/
def lineCode (l : Str) : LanguageCode :=
  (LanguageCode.new (codePart l)).getD ⟨List.replicate LanguageCode.MAX 0, 0⟩

/-- The last non-empty line of the file whose name field is `name`. -/
def lastLineFor (lines : List Str) (name : Str) : Option Str :=
  (lines.filter (fun l => !l.isEmpty && namePart l == name)).getLast?

/-! ### Pages and parse trees (external collaborators)

`dump_parser` yields `Page { title, text, namespace, .. }` records (or
errors), and `configuration.parse(&text)` returns a tree of nodes whose
headings carry a level and recover their text from the source. The model
gives a heading its text directly and lets any node contain child nodes,
so that nesting is expressible. -/

/-- Model of the namespaces the classifier distinguishes (Main = 0,
Appendix = 100, Reconstruction = 118, everything else inert). -/
inductive Namespace where
  | main
  | appendix
  | reconstruction
  | otherNs
deriving DecidableEq, Repr

/-- Model of the external parse-tree nodes: a heading with its level, its
rendered text (`nodes.get_text_from(&text)`) and its child nodes; any
other node with its children; or plain text. -/
inductive WNode where
  | heading (level : Nat) (text : Str) (children : List WNode)
  | otherNode (children : List WNode)
  | plainText (s : Str)

/-- Model of a `dump_parser::Page` record. -/
structure Page where
  title : Str
  text : Str
  ns : Namespace

/-- Diagnostics written to stderr by `make_entry_index` (the two `log!`
calls in src/main.rs). -/
inductive Diagnostic where
  | languageNameNotRecognized (name : Str) (title : Str)
  | validLanguageNameNotFound (title : Str)
deriving DecidableEq, Repr

/-! ### Entry index (src/types.rs, lines 6-30) -/

/-- Model of `LanguagesToEntries`: a map from language code to the titles
pushed for it, in push order. Keyed association list standing for the
`HashMap<LanguageCode, Vec<UniCase<String>>>`. -/
abbrev LanguagesToEntries := List (LanguageCode × List Str)

/-- Model of `LanguagesToEntries::push`: append the title to the list for
the code, creating the list on first push. -/
def pushEntry : LanguagesToEntries → LanguageCode → Str → LanguagesToEntries
  | [], c, t => [(c, [t])]
  | (c', ts) :: rest, c, t =>
    if c' = c then (c', ts ++ [t]) :: rest
    else (c', ts) :: pushEntry rest c t

/-- The list of titles stored for a code (empty when the code is absent). -/
def entriesOf : LanguagesToEntries → LanguageCode → List Str
  | [], _ => []
  | (c', ts) :: rest, c => if c' = c then ts else entriesOf rest c

/-! ### The classifier (src/main.rs, `make_entry_index`, lines 25-83) -/

/-- Model of Rust `str::split` on a one-byte separator: always yields at
least one (possibly empty) piece. -/
def splitOnByte (sep : Nat) : Str → List Str
  | [] => [[]]
  | b :: rest =>
    match splitOnByte sep rest with
    | [] => [[b]]
    | h :: t => if b = sep then [] :: h :: t else (b :: h) :: t

/-- The Appendix/Reconstruction title lookup (src/main.rs, lines 66-75):
`title.split(':').nth(1)`, then `.split('/').next()`, then table lookup. -/
def titleLanguageCode (table : List (Str × LanguageCode)) (title : Str) :
    Option LanguageCode :=
  (((splitOnByte 58 title).get? 1).bind
    (fun titleAfterNamespace => (splitOnByte 47 titleAfterNamespace).head?)).bind
    (fun languageName => tableGet table languageName)

/-- Processing of one top-level node of a Main-namespace page
(src/main.rs, lines 44-61): a heading of level exactly 2 has its text
looked up — found pushes `(code, title)`, not found logs a diagnostic;
every other node is skipped. -/
def processNode (table : List (Str × LanguageCode)) (title : Str)
    (acc : LanguagesToEntries × List Diagnostic) (n : WNode) :
    LanguagesToEntries × List Diagnostic :=
  match n with
  | .heading level languageName _ =>
    if level = 2 then
      match tableGet table languageName with
      | some c => (pushEntry acc.1 c title, acc.2)
      | none => (acc.1, acc.2 ++ [.languageNameNotRecognized languageName title])
    else acc
  | _ => acc

/-- The Main-namespace loop over the top-level nodes of the parse tree
(`for node in configuration.parse(&text).nodes`). -/
def processMainPage (table : List (Str × LanguageCode)) (title : Str)
    (nodes : List WNode) (acc : LanguagesToEntries × List Diagnostic) :
    LanguagesToEntries × List Diagnostic :=
  nodes.foldl (processNode table title) acc

/-- Per-page dispatch of `make_entry_index` (src/main.rs, lines 41-80):
Main pages scan top-level nodes of the external parse; Appendix and
Reconstruction pages use the title lookup, logging only for
Reconstruction; other namespaces do nothing. `parse` is the external
markup parser applied to the page text. -/
def processPage (parse : Str → List WNode) (table : List (Str × LanguageCode))
    (acc : LanguagesToEntries × List Diagnostic) (p : Page) :
    LanguagesToEntries × List Diagnostic :=
  match p.ns with
  | .main => processMainPage table p.title (parse p.text) acc
  | .appendix =>
    match titleLanguageCode table p.title with
    | some c => (pushEntry acc.1 c p.title, acc.2)
    | none => acc
  | .reconstruction =>
    match titleLanguageCode table p.title with
    | some c => (pushEntry acc.1 c p.title, acc.2)
    | none => (acc.1, acc.2 ++ [.validLanguageNameNotFound p.title])
  | .otherNs => acc

/-- Model of `make_entry_index`'s scan loop: the dump stream is a list of
parse results; the `?` on `parse_result` aborts at the first error. -/
def makeEntryIndex (parse : Str → List WNode) (table : List (Str × LanguageCode)) :
    List (Except DumpError Page) → LanguagesToEntries × List Diagnostic →
    Except DumpError (LanguagesToEntries × List Diagnostic)
  | [], acc => .ok acc
  | .error e :: _, _ => .error e
  | .ok p :: rest, acc => makeEntryIndex parse table rest (processPage parse table acc p)

/-! ### The emitter (src/main.rs, `print_entries`, lines 85-102)

Titles are stored as `UniCase<String>`: they compare case-insensitively
but display their original text. `entries.sort()` is Rust's stable sort
under that comparison. The case folding of the external `unicase` crate is
modelled at the ASCII level (sufficient for every property stated here,
which either holds for an arbitrary fold or is exercised on ASCII data).
A stable sort's output is determined by the comparison, so the structural
insertion sort below is extensionally the Rust sort. -/

/-- ASCII case folding of one byte. -/
def asciiLower (b : Nat) : Nat := if 65 ≤ b ∧ b ≤ 90 then b + 32 else b

/-- Case folding of a byte string (model of the `UniCase` comparison key). -/
def foldStr (s : Str) : Str := s.map asciiLower

/-- The `UniCase` comparison: byte-lexicographic on the folded strings. -/
def uniCaseLe (s t : Str) : Bool := lexLe (foldStr s) (foldStr t)

/-- Insert into a `uniCaseLe`-sorted list, before the first element not
strictly smaller (so before any tied element already present — the
position a stable sort gives an element that precedes the tied ones). -/
def ordInsert (a : Str) : List Str → List Str
  | [] => [a]
  | y :: l => if uniCaseLe a y then a :: y :: l else y :: ordInsert a l

/-- Model of `entries.sort()` on `Vec<UniCase<String>>`: the stable sort
under the case-insensitive comparison. -/
def sortEntries : List Str → List Str
  | [] => []
  | a :: l => ordInsert a (sortEntries l)

/-- The bytes written for one language code's file: every title in sorted
order, each followed by the newline that `writeln!` appends. -/
def emitFileContent (entries : List Str) : Str :=
  ((sortEntries entries).map (fun e => e ++ [10])).flatten

/-! ### Output paths (src/main.rs, lines 90-91)

`output_dir.join(language_code)` followed by `path.set_extension("txt")`.
`joinPath` models `Path::join` on Unix; `setExtensionTxt` models
`set_extension("txt")` for paths whose final component is a normal file
name (nonempty, not `.` or `..`) — the region every path built from a
nonempty language code without a slash lies in. -/

/-- Split a byte string at its last occurrence of `sep`: the bytes before
and after it, or nothing when `sep` is absent. -/
def splitAtLastByte (sep : Nat) : Str → Option (Str × Str)
  | [] => none
  | b :: rest =>
    match splitAtLastByte sep rest with
    | some p => some (b :: p.1, p.2)
    | none => if b = sep then some ([], rest) else none

/-- Model of `Path::join` (Unix): an absolute component replaces the base;
otherwise a separator is added unless the base is empty or already ends
with one. -/
def joinPath (dir component : Str) : Str :=
  if component.head? = some 47 then component
  else if dir = [] then component
  else if dir.getLast? = some 47 then dir ++ component
  else dir ++ 47 :: component

/-- The directory part and final component of a path (no trailing-slash
stripping: meaningful when the path does not end in a separator). -/
def fileNameSplit (path : Str) : Str × Str :=
  match splitAtLastByte 47 path with
  | none => ([], path)
  | some p => (p.1 ++ [47], p.2)

/-- Model of `Path::file_stem` on a file name: the part before the last
dot, except that a name whose only dot is leading is its own stem. -/
def fileStem (name : Str) : Str :=
  match splitAtLastByte 46 name with
  | none => name
  | some p => if p.1 = [] then name else p.1

/-- Model of `path.set_extension("txt")`: replace everything after the
stem of the final component with `.txt`. -/
def setExtensionTxt (path : Str) : Str :=
  (fileNameSplit path).1 ++ fileStem (fileNameSplit path).2 ++ ascii ".txt"

/-- The output path computed for one language code in `print_entries`. -/
def outputPath (dir : Str) (code : LanguageCode) : Str :=
  setExtensionTxt (joinPath dir code.asText)

/-! ### The pipeline (src/main.rs, `main_with_result`, lines 104-119) -/

/-- Observable file-system effects of a run. -/
inductive EffectItem where
  | createDirAll (path : Str)
  | writeFile (path : Str) (content : Str)
deriving DecidableEq, Repr

/-- The files written by `print_entries`: one per language code of the
index, at the code's output path, with the sorted newline-terminated
titles. -/
def printEntriesEffects (dir : Str) (idx : LanguagesToEntries) : List EffectItem :=
  idx.map (fun p => .writeFile (outputPath dir p.1) (emitFileContent p.2))

/-- Model of `main_with_result`: create the output directory (with
parents), load the table, scan the dump, and only then emit. Returns the
file-system effects in order and the error that aborted the run, if any.
`tsvLines` stands for the lines of the file at `tsvPath`. -/
def runPipeline (parse : Str → List WNode) (tsvPath : Str) (tsvLines : List Str)
    (stream : List (Except DumpError Page)) (dir : Str) :
    List EffectItem × Option Error :=
  let dirEffects := [EffectItem.createDirAll dir]
  match fromTsvLines tsvPath tsvLines with
  | .error e => (dirEffects, some e)
  | .ok table =>
    match makeEntryIndex parse table stream ([], []) with
    | .error e => (dirEffects, some (.dumpParsingError e))
    | .ok idxAndDiags => (dirEffects ++ printEntriesEffects dir idxAndDiags.1, none)

/-! ### Characterisations used by the statements -/

/-- The associations a Main-namespace page contributes, read off the
top-level nodes: one `(code, title)` per level-2 heading whose text the
table recognises. -/
def pageAssocs (table : List (Str × LanguageCode)) (title : Str)
    (nodes : List WNode) : List (LanguageCode × Str) :=
  nodes.filterMap (fun n =>
    match n with
    | .heading level languageName _ =>
      if level = 2 then (tableGet table languageName).map (fun c => (c, title))
      else none
    | _ => none)

/-- The diagnostics a Main-namespace page contributes: one per level-2
heading whose text the table does not recognise. -/
def pageDiags (table : List (Str × LanguageCode)) (title : Str)
    (nodes : List WNode) : List Diagnostic :=
  nodes.filterMap (fun n =>
    match n with
    | .heading level languageName _ =>
      if level = 2 then
        match tableGet table languageName with
        | some _ => none
        | none => some (.languageNameNotRecognized languageName title)
      else none
    | _ => none)

/-- Erase every node's children, keeping the top-level structure. -/
def pruneNode : WNode → WNode
  | .heading level text _ => .heading level text []
  | .otherNode _ => .otherNode []
  | .plainText s => .plainText s

/-! ### Concrete data for witnesses -/

/-- The code `en`, as constructed by `LanguageCode.new`. -/
def enCode : LanguageCode := ⟨[101, 110, 0, 0, 0, 0, 0, 0, 0, 0, 0], 2⟩

/-- The code `fr`, as constructed by `LanguageCode.new`. -/
def frCode : LanguageCode := ⟨[102, 114, 0, 0, 0, 0, 0, 0, 0, 0, 0], 2⟩

/-- The code `es`, as constructed by `LanguageCode.new`. -/
def esCode : LanguageCode := ⟨[101, 115, 0, 0, 0, 0, 0, 0, 0, 0, 0], 2⟩

/-- A small language-name table: English, French, Spanish. -/
def exampleTable : List (Str × LanguageCode) :=
  [(ascii "English", enCode), (ascii "French", frCode), (ascii "Spanish", esCode)]

/-- A parse function whose trees have two top-level level-2 headings. -/
def exampleParse : Str → List WNode :=
  fun _ => [WNode.heading 2 (ascii "English") [], WNode.heading 2 (ascii "French") []]

/-- A Main-namespace page. -/
def mainPageExample : Page := ⟨ascii "foo", ascii "==English==\n==French==", .main⟩

/-- An Appendix-namespace page titled `Appendix:Spanish/Verbs`. -/
def appendixPageExample : Page := ⟨ascii "Appendix:Spanish/Verbs", [], .appendix⟩

/-- The code built from the 3-byte text `a.b` (accepted by construction). -/
def dotCode : LanguageCode := ⟨[97, 46, 98, 0, 0, 0, 0, 0, 0, 0, 0], 3⟩

/-! ### Lemmas about byte-string orders and padding -/

lemma lexLt_irrefl : ∀ s : Str, lexLt s s = false
  | [] => rfl
  | a :: s => by simp [lexLt, lexLt_irrefl s]

lemma lexLt_nil_right : ∀ s : Str, lexLt s [] = false
  | [] => rfl
  | _ :: _ => rfl

/-- Comparing the zero-padded buffers and then the lengths is the same as
comparing the original byte strings lexicographically. -/
lemma padLex : ∀ (n : Nat) (s t : Str) (hs : s.length ≤ n) (ht : t.length ≤ n),
    ((lexLt (s ++ List.replicate (n - s.length) 0) (t ++ List.replicate (n - t.length) 0) = true)
      ∨ (s ++ List.replicate (n - s.length) 0 = t ++ List.replicate (n - t.length) 0
          ∧ s.length < t.length))
    ↔ lexLt s t = true
  | 0, s, t, hs, ht => by
    have hs0 : s = [] := List.eq_nil_of_length_eq_zero (Nat.le_zero.mp hs)
    have ht0 : t = [] := List.eq_nil_of_length_eq_zero (Nat.le_zero.mp ht)
    subst hs0; subst ht0
    simp [lexLt]
  | n + 1, [], [], _, _ => by simp [lexLt, lexLt_irrefl]
  | n + 1, [], b :: t, _, ht => by
    have ht' : t.length ≤ n := by simpa using ht
    have ih := padLex n [] t (Nat.zero_le n) ht'
    simp only [List.length_cons, List.length_nil, Nat.succ_sub_succ, Nat.sub_zero,
      List.nil_append, List.replicate_succ, List.cons_append] at ih ⊢
    constructor
    · intro _; simp [lexLt]
    · intro _
      by_cases hb : b = 0
      · subst hb
        by_cases hT : t = []
        · subst hT
          right
          simp
        · have : lexLt ([] : Str) t = true := by
            cases t with
            | nil => exact absurd rfl hT
            | cons x xs => rfl
          rcases ih.mpr this with h | ⟨he, hl⟩
          · left; simp [lexLt, h]
          · right
            constructor
            · simp [he]
            · omega
      · left
        have hpos : 0 < b := Nat.pos_of_ne_zero hb
        simp [lexLt, hpos]
  | n + 1, a :: s, [], hs, _ => by
    have hs' : s.length ≤ n := by simpa using hs
    have ih := padLex n s [] hs' (Nat.zero_le n)
    simp only [List.length_cons, List.length_nil, Nat.succ_sub_succ, Nat.sub_zero,
      List.nil_append, List.replicate_succ, List.cons_append] at ih ⊢
    refine iff_of_false ?_ (by simp [lexLt_nil_right])
    intro h
    rcases h with h | ⟨_, hl⟩
    · by_cases ha : a = 0
      · subst ha
        have hXY : lexLt (s ++ List.replicate (n - s.length) 0) (List.replicate n 0) = true := by
          simpa [lexLt] using h
        have hfalse : lexLt s [] = true := ih.mp (Or.inl (by simpa using hXY))
        rw [lexLt_nil_right] at hfalse
        exact absurd hfalse (by simp)
      · simp [lexLt, ha] at h
    · omega
  | n + 1, a :: s, b :: t, hs, ht => by
    have hs' : s.length ≤ n := by simpa using hs
    have ht' : t.length ≤ n := by simpa using ht
    have ih := padLex n s t hs' ht'
    simp only [List.length_cons, Nat.succ_sub_succ, List.cons_append] at ih ⊢
    rcases Nat.lt_trichotomy a b with hab | hab | hab
    · simp [lexLt, hab]
    · subst hab
      have hd : (decide (a < a)) = false := by simp
      simp only [lexLt, hd, Bool.false_or, beq_self_eq_true, Bool.true_and,
        List.cons.injEq, true_and, Nat.succ_lt_succ_iff]
      exact ih
    · have h1 : ¬ a < b := by omega
      have h2 : a ≠ b := by omega
      simp [lexLt, h1, h2]

/-! ### Claims about `LanguageCode` (C7, C8) -/

/-- C7: `LanguageCode` construction fails exactly on inputs longer than 11
bytes; every input of at most 11 bytes constructs, and `asText` (the
`Deref` view) returns the original bytes unchanged. -/
theorem claim_C7 : ∀ s : Str,
    (LanguageCode.new s = none ↔ LanguageCode.MAX < s.length) ∧
    (∀ c, LanguageCode.new s = some c → c.asText = s) := by
  intro s
  constructor
  · unfold LanguageCode.new
    split
    · simp only [true_iff]; omega
    · simp only [reduceCtorEq, false_iff]; omega
  · intro c hc
    unfold LanguageCode.new at hc
    split at hc
    · exact absurd hc (by simp)
    · cases hc
      simpa [LanguageCode.asText] using List.take_left s _

/-- Witness for C7: an 11-byte code (the maximal capacity) constructs and
round-trips. -/
theorem claim_C7_witness :
    LanguageCode.new (ascii "aaa-aaa-aaa") = some ⟨ascii "aaa-aaa-aaa", 11⟩ ∧
    LanguageCode.asText ⟨ascii "aaa-aaa-aaa", 11⟩ = ascii "aaa-aaa-aaa" :=
  ⟨by decide, (claim_C7 (ascii "aaa-aaa-aaa")).2 ⟨ascii "aaa-aaa-aaa", 11⟩ (by decide)⟩

/-- C8: for successfully constructed codes, structural equality of the
stored buffer-plus-length is equality of the original texts, and the
derived buffer-then-length order is byte-lexicographic order of the
texts. -/
theorem claim_C8 : ∀ (s t : Str) (cs ct : LanguageCode),
    LanguageCode.new s = some cs → LanguageCode.new t = some ct →
    ((cs = ct ↔ s = t) ∧ (codeLt cs ct ↔ lexLt s t = true)) := by
  intro s t cs ct hcs hct
  unfold LanguageCode.new at hcs hct
  split at hcs
  · exact absurd hcs (by simp)
  · split at hct
    · exact absurd hct (by simp)
    · cases hcs
      cases hct
      have hs : s.length ≤ LanguageCode.MAX := by omega
      have ht : t.length ≤ LanguageCode.MAX := by omega
      constructor
      · constructor
        · intro h
          have hdata := congrArg LanguageCode.data h
          have hlen := congrArg LanguageCode.len h
          simp only at hdata hlen
          calc s = (s ++ List.replicate (LanguageCode.MAX - s.length) 0).take s.length :=
                (List.take_left s _).symm
            _ = (t ++ List.replicate (LanguageCode.MAX - t.length) 0).take t.length := by
                rw [hdata, hlen]
            _ = t := List.take_left t _
        · intro h; subst h; rfl
      · simpa [codeLt] using padLex LanguageCode.MAX s t hs ht

/-! ### Lemmas about table loading -/

lemma splitFirstTab_no_tab : ∀ l : Str, 9 ∉ l → splitFirstTab l = (l, none)
  | [], _ => rfl
  | b :: rest, h => by
    have hb : ¬ b = 9 := fun hb => h (hb ▸ List.mem_cons_self b rest)
    have ih := splitFirstTab_no_tab rest (fun hr => h (List.mem_cons_of_mem b hr))
    simp [splitFirstTab, hb, ih]

lemma splitFirstTab_first : ∀ (a b : Str), 9 ∉ a → splitFirstTab (a ++ 9 :: b) = (a, some b)
  | [], b, _ => by simp [splitFirstTab]
  | x :: a, b, h => by
    have hx : ¬ x = 9 := fun hx => h (hx ▸ List.mem_cons_self x a)
    have ih := splitFirstTab_first a b (fun ha => h (List.mem_cons_of_mem x ha))
    simp [splitFirstTab, hx, ih]

lemma loadFrom_cons_nil (path : Str) (i : Nat) (rest : List Str) :
    loadFrom path i ([] :: rest) = loadFrom path (i + 1) rest := by
  simp [loadFrom]

lemma loadFrom_cons (path : Str) (i : Nat) (line : Str) (rest : List Str)
    (h : line ≠ []) :
    loadFrom path i (line :: rest)
      = match parseLine path i line with
        | .error e => .error e
        | .ok p =>
          match loadFrom path (i + 1) rest with
          | .error e => .error e
          | .ok t => .ok (p :: t) := by
  simp [loadFrom, h]

/-- Splitting a successful load across an append: the tail is processed
starting at the index after the prefix. -/
lemma loadFrom_append : ∀ (path : Str) (i : Nat) (xs ys : List Str)
    (t : List (Str × LanguageCode)), loadFrom path i xs = .ok t →
    loadFrom path i (xs ++ ys)
      = match loadFrom path (i + xs.length) ys with
        | .error e => .error e
        | .ok u => .ok (t ++ u)
  | path, i, [], ys, t, h => by
    cases h
    simp only [List.nil_append, List.length_nil, Nat.add_zero]
    cases loadFrom path i ys <;> simp
  | path, i, line :: xs, ys, t, h => by
    by_cases hline : line = []
    · subst hline
      rw [loadFrom_cons_nil] at h
      rw [List.cons_append, loadFrom_cons_nil, loadFrom_append path (i + 1) xs ys t h,
        List.length_cons]
      have harith : i + 1 + xs.length = i + (xs.length + 1) := by omega
      rw [harith]
    · rw [loadFrom_cons path i line xs hline] at h
      rw [List.cons_append, loadFrom_cons path i line (xs ++ ys) hline]
      match hp : parseLine path i line with
      | .error e => rw [hp] at h; exact absurd h (by simp)
      | .ok p =>
        rw [hp] at h
        match hl : loadFrom path (i + 1) xs with
        | .error e => rw [hl] at h; exact absurd h (by simp)
        | .ok t' =>
          rw [hl] at h
          cases h
          rw [loadFrom_append path (i + 1) xs ys t' hl, List.length_cons]
          have harith : i + 1 + xs.length = i + (xs.length + 1) := by omega
          rw [harith]
          cases loadFrom path (i + (xs.length + 1)) ys <;> simp

lemma loadFrom_replicate_nil : ∀ (path : Str) (i k : Nat),
    loadFrom path i (List.replicate k []) = .ok []
  | _, _, 0 => rfl
  | path, i, k + 1 => by
    simp only [List.replicate_succ, loadFrom, if_pos rfl]
    exact loadFrom_replicate_nil path (i + 1) k

/-! ### Claims about table loading (C5, C6) -/

/-- C5: empty lines are skipped without error; a non-empty line with no
tab fails the whole load with the malformed-line error carrying the path,
the raw line and the 1-based line number counted in the original file
(empty lines advance it); a non-empty line whose code field exceeds 11
bytes fails with the invalid-language-code error at the same position. -/
theorem claim_C5 : ∀ (path : Str) (pre : List Str) (line : Str) (post : List Str)
    (tPre : List (Str × LanguageCode)),
    loadFrom path 0 pre = .ok tPre → line ≠ [] →
    ((9 ∉ line →
        fromTsvLines path (pre ++ line :: post)
          = .error (.invalidNameToCodeFormat path (pre.length + 1) line))
      ∧ (∀ name code, splitFirstTab line = (name, some code) →
          LanguageCode.MAX < code.length →
          fromTsvLines path (pre ++ line :: post)
            = .error (.invalidLanguageCode path (pre.length + 1) line))
      ∧ (∀ (path2 : Str) (i k : Nat), loadFrom path2 i (List.replicate k []) = .ok [])) := by
  intro path pre line post tPre hpre hline
  have happ := loadFrom_append path 0 pre (line :: post) tPre hpre
  simp only [Nat.zero_add] at happ
  refine ⟨?_, ?_, loadFrom_replicate_nil⟩
  · intro hnotab
    have hsplit := splitFirstTab_no_tab line hnotab
    have hparse : parseLine path pre.length line
        = .error (.invalidNameToCodeFormat path (pre.length + 1) line) := by
      simp [parseLine, hsplit]
    unfold fromTsvLines
    rw [happ]
    simp [loadFrom, hline, hparse]
  · intro name code hsplit hlong
    have hnew : LanguageCode.new code = none := by
      unfold LanguageCode.new
      rw [if_pos hlong]
    have hparse : parseLine path pre.length line
        = .error (.invalidLanguageCode path (pre.length + 1) line) := by
      simp [parseLine, hsplit, hnew]
    unfold fromTsvLines
    rw [happ]
    simp [loadFrom, hline, hparse]

/-- Witness for C5: with one valid line and one empty line before it, the
tabless line `nocolumns` fails the load as line 3, and a line with a
13-byte code fails as line 3 in its own file. -/
theorem claim_C5_witness :
    (loadFrom (ascii "langs.tsv") 0 [ascii "English\ten", []]
        = .ok [(ascii "English", ⟨[101, 110, 0, 0, 0, 0, 0, 0, 0, 0, 0], 2⟩)])
    ∧ (ascii "nocolumns" ≠ [])
    ∧ fromTsvLines (ascii "langs.tsv")
        ([ascii "English\ten", []] ++ ascii "nocolumns" :: [ascii "French\tfr"])
      = .error (.invalidNameToCodeFormat (ascii "langs.tsv") 3 (ascii "nocolumns")) := by
  refine ⟨by rfl, by decide, ?_⟩
  exact ((claim_C5 (ascii "langs.tsv") [ascii "English\ten", []] (ascii "nocolumns")
    [ascii "French\tfr"] [(ascii "English", ⟨[101, 110, 0, 0, 0, 0, 0, 0, 0, 0, 0], 2⟩)]
    (by rfl) (by decide)).1 (by decide))

/-- A well-formed load returns exactly the `(name, code)` pairs of the
non-empty lines, in file order. -/
lemma loadFrom_wellFormed : ∀ (path : Str) (i : Nat) (lines : List Str),
    (∀ l ∈ lines, l ≠ [] →
      ((splitFirstTab l).2.isSome = true ∧ (codePart l).length ≤ LanguageCode.MAX)) →
    loadFrom path i lines
      = .ok ((lines.filter (fun l => !l.isEmpty)).map (fun l => (namePart l, lineCode l)))
  | _, _, [], _ => rfl
  | path, i, line :: rest, h => by
    have hrest := loadFrom_wellFormed path (i + 1) rest
      (fun l hl => h l (List.mem_cons_of_mem line hl))
    by_cases hline : line = []
    · subst hline
      simp only [loadFrom, if_pos rfl, List.filter_cons, List.isEmpty_nil,
        Bool.not_true, hrest]
      rfl
    · obtain ⟨hsome, hlen⟩ := h line (List.mem_cons_self line rest) hline
      rcases hps : splitFirstTab line with ⟨name1, _ | code⟩
      · rw [hps] at hsome; exact absurd hsome (by simp)
      · have hcode : codePart line = code := by simp [codePart, hps]
        rw [hcode] at hlen
        have hnewEq : LanguageCode.new code
            = some ⟨code ++ List.replicate (LanguageCode.MAX - code.length) 0, code.length⟩ := by
          unfold LanguageCode.new
          rw [if_neg (by omega)]
        have hname : namePart line = name1 := by simp [namePart, hps]
        have hlc : lineCode line
            = ⟨code ++ List.replicate (LanguageCode.MAX - code.length) 0, code.length⟩ := by
          simp [lineCode, hcode, hnewEq]
        have hparse : parseLine path i line
            = .ok (namePart line, lineCode line) := by
          unfold parseLine
          rw [hps]
          simp only [hnewEq, hname, hlc]
        have hne : line.isEmpty = false := List.isEmpty_eq_false.mpr hline
        rw [loadFrom_cons path i line rest hline, hparse, hrest]
        simp only [List.filter_cons, hne, Bool.not_false, if_true, List.map_cons]

/-- C6: a file whose non-empty lines all are name, tab, code with the code
at most 11 bytes loads successfully; lookup of a name returns the code of
the last line carrying it (later lines overwrite earlier ones), and the
split is on the first tab only (later tabs stay in the code field). -/
theorem claim_C6 : ∀ (path : Str) (lines : List Str),
    (∀ l ∈ lines, l ≠ [] →
      ((splitFirstTab l).2.isSome = true ∧ (codePart l).length ≤ LanguageCode.MAX)) →
    (∃ t, fromTsvLines path lines = .ok t ∧
      ∀ name : Str, tableGet t name
        = (lastLineFor lines name).bind (fun l => LanguageCode.new (codePart l)))
    ∧ (∀ a b : Str, 9 ∉ a → splitFirstTab (a ++ 9 :: b) = (a, some b)) := by
  intro path lines h
  refine ⟨⟨_, loadFrom_wellFormed path 0 lines h, ?_⟩, splitFirstTab_first⟩
  intro name
  unfold tableGet lastLineFor
  rw [List.filter_map]
  have hcomp : ((fun p : Str × LanguageCode => p.1 == name)
      ∘ (fun l => (namePart l, lineCode l))) = (fun l => namePart l == name) := rfl
  rw [hcomp, List.filter_filter]
  rw [List.filter_congr (fun x _ => Bool.and_comm (namePart x == name) (!x.isEmpty))]
  rw [List.getLast?_map, Option.map_map]
  match hlast : (lines.filter (fun l => !l.isEmpty && namePart l == name)).getLast? with
  | none => rw [hlast]; rfl
  | some l =>
    have hmem : l ∈ lines.filter (fun l => !l.isEmpty && namePart l == name) :=
      List.mem_of_mem_getLast? hlast
    have hmem' := List.mem_filter.mp hmem
    have hne : l ≠ [] := by
      have := hmem'.2
      simp only [Bool.and_eq_true, Bool.not_eq_true'] at this
      exact List.isEmpty_eq_false.mp this.1
    obtain ⟨hsome, hlen⟩ := h l hmem'.1 hne
    match hsp : (splitFirstTab l).2 with
    | none => rw [hsp] at hsome; exact absurd hsome (by simp)
    | some code =>
      have hcode : codePart l = code := by simp [codePart, hsp]
      rw [hcode] at hlen
      have hnewEq : LanguageCode.new (codePart l)
          = some ⟨code ++ List.replicate (LanguageCode.MAX - code.length) 0, code.length⟩ := by
        rw [hcode]
        unfold LanguageCode.new
        rw [if_neg (by omega)]
      rw [hlast]
      simp only [Option.map_some, Option.some_bind, Function.comp_apply, hnewEq]
      simp [lineCode, hnewEq]

/-- Witness for C6: a table whose name `English` appears twice maps it to
the code of the later line. -/
theorem claim_C6_witness :
    (∃ t, fromTsvLines (ascii "langs.tsv")
        [ascii "English\ten", [], ascii "English\tenm"] = .ok t ∧
      ∀ name : Str, tableGet t name
        = (lastLineFor [ascii "English\ten", [], ascii "English\tenm"] name).bind
            (fun l => LanguageCode.new (codePart l)))
    ∧ (∀ a b : Str, 9 ∉ a → splitFirstTab (a ++ 9 :: b) = (a, some b)) :=
  claim_C6 (ascii "langs.tsv") [ascii "English\ten", [], ascii "English\tenm"] (by decide)

/-! ### Claims about the classifier (C1, C2) -/

/-- Children are never inspected by per-node processing. -/
lemma processNode_pruneNode (table : List (Str × LanguageCode)) (title : Str)
    (acc : LanguagesToEntries × List Diagnostic) (n : WNode) :
    processNode table title acc (pruneNode n) = processNode table title acc n := by
  cases n <;> rfl

/-- The Main-namespace loop is the fold of the per-heading associations
into the index, together with the per-heading diagnostics. -/
lemma processMainPage_eq (table : List (Str × LanguageCode)) (title : Str) :
    ∀ (nodes : List WNode) (acc : LanguagesToEntries × List Diagnostic),
    processMainPage table title nodes acc
      = ((pageAssocs table title nodes).foldl (fun m ct => pushEntry m ct.1 ct.2) acc.1,
         acc.2 ++ pageDiags table title nodes)
  | [], acc => by simp [processMainPage, pageAssocs, pageDiags]
  | n :: nodes, acc => by
    have hstep : processMainPage table title (n :: nodes) acc
        = processMainPage table title nodes (processNode table title acc n) := rfl
    rw [hstep]
    rw [processMainPage_eq table title nodes (processNode table title acc n)]
    match n with
    | .heading level name ch =>
      by_cases hl : level = 2
      · subst hl
        match htg : tableGet table name with
        | some c =>
          simp [processNode, pageAssocs, pageDiags, htg, List.filterMap_cons]
        | none =>
          simp [processNode, pageAssocs, pageDiags, htg, List.filterMap_cons]
      · simp [processNode, pageAssocs, pageDiags, hl, List.filterMap_cons]
    | .otherNode ch =>
      simp [processNode, pageAssocs, pageDiags, List.filterMap_cons]
    | .plainText s =>
      simp [processNode, pageAssocs, pageDiags, List.filterMap_cons]

/-- C1: a Main-namespace page is classified by scanning only the
top-level nodes of its parse: each top-level level-2 heading contributes
exactly one association when its text is in the table and exactly one
diagnostic (and no association) otherwise, never failing; children of the
top-level nodes are never inspected, so nested level-2 headings are not
discovered. -/
theorem claim_C1 : ∀ (parse : Str → List WNode) (table : List (Str × LanguageCode))
    (p : Page) (acc : LanguagesToEntries × List Diagnostic),
    p.ns = .main →
    (processPage parse table acc p
       = ((pageAssocs table p.title (parse p.text)).foldl
            (fun m ct => pushEntry m ct.1 ct.2) acc.1,
          acc.2 ++ pageDiags table p.title (parse p.text)))
    ∧ (∀ children, processMainPage table p.title [WNode.otherNode children] acc = acc)
    ∧ (∀ nodes, processMainPage table p.title (nodes.map pruneNode) acc
         = processMainPage table p.title nodes acc) := by
  intro parse table p acc hns
  obtain ⟨title, text, ns⟩ := p
  simp only at hns
  subst hns
  refine ⟨processMainPage_eq table title (parse text) acc, fun children => rfl, ?_⟩
  intro nodes
  induction nodes generalizing acc with
  | nil => rfl
  | cons n nodes ih =>
    have h1 : processMainPage table title ((n :: nodes).map pruneNode) acc
        = processMainPage table title (nodes.map pruneNode)
            (processNode table title acc (pruneNode n)) := rfl
    have h2 : processMainPage table title (n :: nodes) acc
        = processMainPage table title nodes (processNode table title acc n) := rfl
    rw [h1, h2, processNode_pruneNode, ih]

/-- Witness for C1: the example Main page with headings English and
French is processed into the characterised fold. -/
theorem claim_C1_witness :
    mainPageExample.ns = Namespace.main ∧
    processPage exampleParse exampleTable ([], []) mainPageExample
      = ((pageAssocs exampleTable mainPageExample.title
            (exampleParse mainPageExample.text)).foldl
          (fun m ct => pushEntry m ct.1 ct.2) [],
         [] ++ pageDiags exampleTable mainPageExample.title
            (exampleParse mainPageExample.text)) :=
  ⟨rfl, (claim_C1 exampleParse exampleTable mainPageExample ([], []) rfl).1⟩

/-- C2: an Appendix- or Reconstruction-namespace page pushes exactly one
association `(code, full title)` when the candidate name — the segment at
index 1 of the colon-split title, cut at the first slash — is in the
table; otherwise it pushes nothing, and a diagnostic appears for
Reconstruction pages only. Pages of any other non-Main namespace produce
no association and no diagnostic. -/
theorem claim_C2 : ∀ (parse : Str → List WNode) (table : List (Str × LanguageCode))
    (p : Page) (acc : LanguagesToEntries × List Diagnostic),
    (p.ns = .appendix ∨ p.ns = .reconstruction) →
    ((∀ c, titleLanguageCode table p.title = some c →
        processPage parse table acc p = (pushEntry acc.1 c p.title, acc.2))
     ∧ (titleLanguageCode table p.title = none →
        processPage parse table acc p
          = (acc.1, if p.ns = .reconstruction
              then acc.2 ++ [.validLanguageNameNotFound p.title] else acc.2))
     ∧ (∀ (q : Page) (acc2 : LanguagesToEntries × List Diagnostic), q.ns = .otherNs →
        processPage parse table acc2 q = acc2)) := by
  intro parse table p acc hns
  obtain ⟨title, text, ns⟩ := p
  simp only at hns
  refine ⟨?_, ?_, ?_⟩
  · intro c hc
    rcases hns with rfl | rfl <;> simp [processPage, hc]
  · intro hnone
    rcases hns with rfl | rfl <;> simp [processPage, hnone]
  · intro q acc2 hq
    obtain ⟨t2, x2, ns2⟩ := q
    simp only at hq
    subst hq
    rfl

/-- Witness for C2: the Appendix page `Appendix:Spanish/Verbs` with
Spanish in the table pushes exactly `(es, full title)`. -/
theorem claim_C2_witness :
    (appendixPageExample.ns = Namespace.appendix
      ∨ appendixPageExample.ns = Namespace.reconstruction) ∧
    titleLanguageCode exampleTable appendixPageExample.title = some esCode ∧
    processPage exampleParse exampleTable ([], []) appendixPageExample
      = (pushEntry [] esCode appendixPageExample.title, []) :=
  ⟨Or.inl rfl, by rfl,
    (claim_C2 exampleParse exampleTable appendixPageExample ([], [])
      (Or.inl rfl)).1 esCode (by rfl)⟩

/-! ### Lemmas about the case-insensitive stable sort (for C3) -/

lemma lexLe_refl : ∀ s : Str, lexLe s s = true
  | [] => rfl
  | a :: s => by simp [lexLe, lexLe_refl s]

lemma lexLe_total : ∀ s t : Str, lexLe s t = true ∨ lexLe t s = true
  | [], _ => Or.inl rfl
  | _ :: _, [] => Or.inr rfl
  | a :: s, b :: t => by
    rcases Nat.lt_trichotomy a b with hab | hab | hab
    · left; simp [lexLe, hab]
    · subst hab
      rcases lexLe_total s t with h | h
      · left; simp [lexLe, h]
      · right; simp [lexLe, h]
    · right; simp [lexLe, hab]

lemma lexLe_trans : ∀ s t u : Str, lexLe s t = true → lexLe t u = true →
    lexLe s u = true
  | [], _, _, _, _ => rfl
  | a :: s, b :: t, [], _, h2 => by simp [lexLe] at h2
  | a :: s, [], u, h1, _ => by simp [lexLe] at h1
  | a :: s, b :: t, c :: u, h1, h2 => by
    simp only [lexLe, Bool.or_eq_true, Bool.and_eq_true, decide_eq_true_eq,
      beq_iff_eq] at h1 h2 ⊢
    rcases h1 with h1 | ⟨rfl, h1⟩
    · rcases h2 with h2 | ⟨rfl, h2⟩
      · left; omega
      · left; exact h1
    · rcases h2 with h2 | ⟨rfl, h2⟩
      · left; exact h2
      · right; exact ⟨rfl, lexLe_trans s t u h1 h2⟩

lemma uniCaseLe_refl (s : Str) : uniCaseLe s s = true := lexLe_refl _

lemma uniCaseLe_total (s t : Str) : uniCaseLe s t = true ∨ uniCaseLe t s = true :=
  lexLe_total _ _

lemma uniCaseLe_trans (s t u : Str) : uniCaseLe s t = true → uniCaseLe t u = true →
    uniCaseLe s u = true := lexLe_trans _ _ _

lemma ordInsert_perm (a : Str) : ∀ l : List Str, (ordInsert a l).Perm (a :: l)
  | [] => List.Perm.refl _
  | y :: l => by
    unfold ordInsert
    by_cases h : uniCaseLe a y = true
    · rw [if_pos h]
    · rw [if_neg h]
      exact ((ordInsert_perm a l).cons y).trans (List.Perm.swap a y l)

lemma sortEntries_perm : ∀ l : List Str, (sortEntries l).Perm l
  | [] => List.Perm.refl _
  | a :: l => (ordInsert_perm a (sortEntries l)).trans ((sortEntries_perm l).cons a)

lemma mem_ordInsert (a x : Str) (l : List Str) :
    x ∈ ordInsert a l ↔ x = a ∨ x ∈ l := by
  rw [(ordInsert_perm a l).mem_iff, List.mem_cons]

lemma pairwise_ordInsert (a : Str) : ∀ l : List Str,
    l.Pairwise (fun s t => uniCaseLe s t = true) →
    (ordInsert a l).Pairwise (fun s t => uniCaseLe s t = true)
  | [], _ => List.pairwise_singleton _ a
  | y :: l, h => by
    unfold ordInsert
    by_cases hle : uniCaseLe a y = true
    · rw [if_pos hle]
      refine List.Pairwise.cons ?_ h
      intro z hz
      rcases List.mem_cons.mp hz with rfl | hz
      · exact hle
      · exact uniCaseLe_trans a y z hle (List.rel_of_pairwise_cons h hz)
    · rw [if_neg hle]
      have hya : uniCaseLe y a = true := by
        rcases uniCaseLe_total a y with h' | h'
        · exact absurd h' hle
        · exact h'
      refine List.Pairwise.cons ?_ (pairwise_ordInsert a l h.tail)
      intro z hz
      rcases (mem_ordInsert a z l).mp hz with rfl | hz
      · exact hya
      · exact List.rel_of_pairwise_cons h hz

lemma sortEntries_pairwise : ∀ l : List Str,
    (sortEntries l).Pairwise (fun s t => uniCaseLe s t = true)
  | [] => List.Pairwise.nil
  | a :: l => pairwise_ordInsert a (sortEntries l) (sortEntries_pairwise l)

/-- Inserting an element keeps the filtered subsequence for any predicate
that forces mutual comparability: a tied element is placed before all
existing ties, which is exactly where a stable sort puts it. -/
lemma filter_ordInsert (p : Str → Bool)
    (hcompat : ∀ x y, p x = true → p y = true → uniCaseLe x y = true) (a : Str) :
    ∀ l : List Str,
    (ordInsert a l).filter p = if p a then a :: l.filter p else l.filter p
  | [] => by
    unfold ordInsert
    by_cases hpa : p a = true <;> simp [List.filter_cons, hpa]
  | y :: l => by
    unfold ordInsert
    by_cases hle : uniCaseLe a y = true
    · rw [if_pos hle]
      by_cases hpa : p a = true <;> simp [List.filter_cons, hpa]
    · rw [if_neg hle]
      have ih := filter_ordInsert p hcompat a l
      by_cases hpy : p y = true
      · have hpa : p a = false := by
          by_cases hpa : p a = true
          · exact absurd (hcompat a y hpa hpy) hle
          · simpa using hpa
        simp [List.filter_cons, hpy, hpa, ih]
      · have hpy' : p y = false := by simpa using hpy
        by_cases hpa : p a = true <;> simp [List.filter_cons, hpy', hpa, ih]

/-- Stability of the sort: the subsequence of titles with any given fold
key is exactly their original (push) order. -/
lemma sortEntries_filter_key (k : Str) : ∀ l : List Str,
    (sortEntries l).filter (fun e => foldStr e == k)
      = l.filter (fun e => foldStr e == k)
  | [] => rfl
  | a :: l => by
    have hcompat : ∀ x y : Str, (foldStr x == k) = true → (foldStr y == k) = true →
        uniCaseLe x y = true := by
      intro x y hx hy
      have hx' : foldStr x = k := by simpa using hx
      have hy' : foldStr y = k := by simpa using hy
      unfold uniCaseLe
      rw [hx', hy']
      exact lexLe_refl k
    have ih := sortEntries_filter_key k l
    unfold sortEntries
    rw [filter_ordInsert (fun e => foldStr e == k) hcompat a (sortEntries l)]
    by_cases hpa : (foldStr a == k) = true <;> simp [List.filter_cons, hpa, ih]

/-! ### Claim about the entry index and emitted file contents (C3) -/

/-- C3: pushes accumulate per code in insertion order (other codes
untouched); the emitted list of lines for a code is a permutation of the
titles pushed under it (duplicates and casing kept), sorted under the
case-insensitive comparison, with titles of equal case-folding kept in
push order; pushing banana, Apple, apple yields the lines Apple, apple,
banana, each newline-terminated. -/
theorem claim_C3 :
    (∀ (m : LanguagesToEntries) (c : LanguageCode) (t : Str),
      entriesOf (pushEntry m c t) c = entriesOf m c ++ [t]
      ∧ ∀ c2, c2 ≠ c → entriesOf (pushEntry m c t) c2 = entriesOf m c2)
    ∧ (∀ entries : List Str, (sortEntries entries).Perm entries)
    ∧ (∀ entries : List Str,
        (sortEntries entries).Pairwise (fun s t => uniCaseLe s t = true))
    ∧ (∀ (entries : List Str) (k : Str),
        (sortEntries entries).filter (fun e => foldStr e == k)
          = entries.filter (fun e => foldStr e == k))
    ∧ emitFileContent [ascii "banana", ascii "Apple", ascii "apple"]
        = ascii "Apple\napple\nbanana\n" := by
  refine ⟨?_, sortEntries_perm, sortEntries_pairwise,
    fun entries k => sortEntries_filter_key k entries, by rfl⟩
  intro m c t
  induction m with
  | nil =>
    refine ⟨by simp [pushEntry, entriesOf], ?_⟩
    intro c2 hc2
    have hne : c ≠ c2 := Ne.symm hc2
    simp [pushEntry, entriesOf, hne]
  | cons pair m ih =>
    obtain ⟨c', ts⟩ := pair
    by_cases hc : c' = c
    · subst hc
      refine ⟨by simp [pushEntry, entriesOf], ?_⟩
      intro c2 hc2
      have hne : c' ≠ c2 := Ne.symm hc2
      simp [pushEntry, entriesOf, hne]
    · constructor
      · simp [pushEntry, entriesOf, hc, ih.1]
      · intro c2 hc2
        by_cases hc' : c' = c2
        · subst hc'
          simp [pushEntry, entriesOf, hc]
        · simp [pushEntry, entriesOf, hc, hc', (ih.2 c2 hc2)]

/-- Witness for C3: pushing under one code leaves another code's list
unchanged. -/
theorem claim_C3_witness :
    esCode ≠ enCode ∧
    entriesOf (pushEntry [(enCode, [ascii "a"])] enCode (ascii "b")) esCode
      = entriesOf [(enCode, [ascii "a"])] esCode :=
  ⟨by decide,
    (claim_C3.1 [(enCode, [ascii "a"])] enCode (ascii "b")).2 esCode (by decide)⟩

/-- Witness for C8: the codes built from `[101, 110]` ("en") and
`[101, 110, 0]` (a NUL-extended prefix) have equal buffers but different
lengths, so the theorem's conclusions hold at that pair. -/
theorem claim_C8_witness :
    LanguageCode.new (ascii "en") = some ⟨[101, 110, 0, 0, 0, 0, 0, 0, 0, 0, 0], 2⟩ ∧
    LanguageCode.new [101, 110, 0] = some ⟨[101, 110, 0, 0, 0, 0, 0, 0, 0, 0, 0], 3⟩ ∧
    (((⟨[101, 110, 0, 0, 0, 0, 0, 0, 0, 0, 0], 2⟩ : LanguageCode) =
        ⟨[101, 110, 0, 0, 0, 0, 0, 0, 0, 0, 0], 3⟩ ↔ ascii "en" = [101, 110, 0]) ∧
      (codeLt ⟨[101, 110, 0, 0, 0, 0, 0, 0, 0, 0, 0], 2⟩
          ⟨[101, 110, 0, 0, 0, 0, 0, 0, 0, 0, 0], 3⟩ ↔
        lexLt (ascii "en") [101, 110, 0] = true)) :=
  ⟨by decide, by decide,
    claim_C8 (ascii "en") [101, 110, 0] _ _ (by decide) (by decide)⟩

/-! ### Unfolding lemmas for the pipeline -/

lemma runPipeline_tableError (parse : Str → List WNode) (tsvPath : Str)
    (tsvLines : List Str) (stream : List (Except DumpError Page)) (dir : Str)
    (e : Error) (h : fromTsvLines tsvPath tsvLines = .error e) :
    runPipeline parse tsvPath tsvLines stream dir
      = ([EffectItem.createDirAll dir], some e) := by
  simp [runPipeline, h]

lemma runPipeline_scanError (parse : Str → List WNode) (tsvPath : Str)
    (tsvLines : List Str) (stream : List (Except DumpError Page)) (dir : Str)
    (table : List (Str × LanguageCode)) (e : DumpError)
    (h1 : fromTsvLines tsvPath tsvLines = .ok table)
    (h2 : makeEntryIndex parse table stream ([], []) = .error e) :
    runPipeline parse tsvPath tsvLines stream dir
      = ([EffectItem.createDirAll dir], some (Error.dumpParsingError e)) := by
  simp [runPipeline, h1, h2]

lemma runPipeline_ok (parse : Str → List WNode) (tsvPath : Str)
    (tsvLines : List Str) (stream : List (Except DumpError Page)) (dir : Str)
    (table : List (Str × LanguageCode))
    (result : LanguagesToEntries × List Diagnostic)
    (h1 : fromTsvLines tsvPath tsvLines = .ok table)
    (h2 : makeEntryIndex parse table stream ([], []) = .ok result) :
    runPipeline parse tsvPath tsvLines stream dir
      = (EffectItem.createDirAll dir :: printEntriesEffects dir result.1, none) := by
  simp [runPipeline, h1, h2]

/-! ### Claim about scan failure (C4) -/

/-- The scan loop propagates the first stream error, whatever follows. -/
lemma makeEntryIndex_error (parse : Str → List WNode)
    (table : List (Str × LanguageCode)) (e : DumpError) (post : List (Except DumpError Page)) :
    ∀ (pre : List (Except DumpError Page)) (acc : LanguagesToEntries × List Diagnostic),
    (∀ x ∈ pre, ∃ p, x = Except.ok p) →
    makeEntryIndex parse table (pre ++ .error e :: post) acc = .error e
  | [], _, _ => rfl
  | x :: pre, acc, h => by
    obtain ⟨p, rfl⟩ := h x (List.mem_cons_self x pre)
    exact makeEntryIndex_error parse table e post pre
      (processPage parse table acc p) (fun y hy => h y (List.mem_cons_of_mem _ hy))

/-- C4: when any page of the dump stream is an error, the run ends with
that (first) error and the only file-system effect is the directory
creation — no output file is written, even if every earlier page was
valid. -/
theorem claim_C4 : ∀ (parse : Str → List WNode) (tsvPath : Str) (tsvLines : List Str)
    (table : List (Str × LanguageCode)) (pre : List (Except DumpError Page))
    (e : DumpError) (post : List (Except DumpError Page)) (dir : Str),
    fromTsvLines tsvPath tsvLines = .ok table →
    (∀ x ∈ pre, ∃ p, x = Except.ok p) →
    runPipeline parse tsvPath tsvLines (pre ++ .error e :: post) dir
      = ([EffectItem.createDirAll dir], some (Error.dumpParsingError e)) := by
  intro parse tsvPath tsvLines table pre e post dir htable hpre
  exact runPipeline_scanError parse tsvPath tsvLines _ dir table e htable
    (makeEntryIndex_error parse table e post pre ([], []) hpre)

/-- Witness for C4: a valid first page followed by a parse error aborts
the run with only the directory-creation effect. -/
theorem claim_C4_witness :
    (fromTsvLines (ascii "langs.tsv") [ascii "English\ten"]
      = .ok [(ascii "English", enCode)]) ∧
    runPipeline exampleParse (ascii "langs.tsv") [ascii "English\ten"]
        ([Except.ok mainPageExample] ++ .error ⟨ascii "bad page"⟩ :: []) (ascii "out")
      = ([EffectItem.createDirAll (ascii "out")],
         some (Error.dumpParsingError ⟨ascii "bad page"⟩)) :=
  ⟨by rfl,
    claim_C4 exampleParse (ascii "langs.tsv") [ascii "English\ten"]
      [(ascii "English", enCode)] [Except.ok mainPageExample] ⟨ascii "bad page"⟩ []
      (ascii "out") (by rfl)
      (fun x hx => ⟨mainPageExample, by simpa using hx⟩)⟩

/-! ### Claims about output paths and the created directory (C9, C10) -/

lemma splitAtLastByte_none : ∀ (sep : Nat) (s : Str), sep ∉ s →
    splitAtLastByte sep s = none
  | _, [], _ => rfl
  | sep, b :: rest, h => by
    have hb : ¬ b = sep := fun hb => h (hb ▸ List.mem_cons_self b rest)
    have ih := splitAtLastByte_none sep rest (fun hr => h (List.mem_cons_of_mem b hr))
    simp [splitAtLastByte, ih, hb]

lemma splitAtLastByte_last : ∀ (sep : Nat) (pre post : Str), sep ∉ post →
    splitAtLastByte sep (pre ++ sep :: post) = some (pre, post)
  | sep, [], post, h => by
    simp [splitAtLastByte, splitAtLastByte_none sep post h]
  | sep, x :: pre, post, h => by
    have ih := splitAtLastByte_last sep pre post h
    simp [splitAtLastByte, ih]

/-- The path written for a code whose text is nonempty and has no slash
and no dot: exactly `dir/<text>.txt`. -/
lemma outputPath_eq (dir : Str) (code : LanguageCode) (hd : dir ≠ [])
    (hds : dir.getLast? ≠ some 47) (hne : code.asText ≠ [])
    (h47 : 47 ∉ code.asText) (h46 : 46 ∉ code.asText) :
    outputPath dir code = dir ++ 47 :: (code.asText ++ ascii ".txt") := by
  have hjoin : joinPath dir code.asText = dir ++ 47 :: code.asText := by
    unfold joinPath
    have hhead : code.asText.head? ≠ some 47 := by
      match hh : code.asText with
      | [] => exact absurd hh hne
      | b :: rest =>
        have : b ≠ 47 := fun hb => h47 (hh ▸ hb ▸ List.mem_cons_self b rest)
        simpa using this
    rw [if_neg hhead, if_neg hd, if_neg hds]
  unfold outputPath
  rw [hjoin]
  unfold setExtensionTxt fileNameSplit
  rw [splitAtLastByte_last 47 dir code.asText h47]
  unfold fileStem
  rw [splitAtLastByte_none 46 code.asText h46]
  simp

/-- C9 counterexample: the 3-byte code text `a.b` is accepted by
construction, but its file is written at `out/a.txt`, not at
`out/a.b.txt`: `set_extension` replaces what follows the last dot of the
code text instead of appending to it. -/
theorem claim_C9_counterexample :
    LanguageCode.new (ascii "a.b") = some dotCode
    ∧ printEntriesEffects (ascii "out") [(dotCode, [ascii "title"])]
        = [EffectItem.writeFile (ascii "out/a.txt") (emitFileContent [ascii "title"])]
    ∧ outputPath (ascii "out") dotCode ≠ ascii "out" ++ 47 :: (ascii "a.b" ++ ascii ".txt") :=
  ⟨by rfl, by rfl, by decide⟩

/-- C9 (amended): for every code of the index whose text is nonempty and
contains neither a slash nor a dot, the emitter writes that code's titles
to `<output_directory>/<code-text>.txt`; a dot in the code text instead
has its suffix replaced by `txt`. -/
theorem claim_C9 : ∀ (dir : Str) (idx : LanguagesToEntries),
    dir ≠ [] → dir.getLast? ≠ some 47 →
    (∀ pair ∈ idx, pair.1.asText ≠ [] ∧ 47 ∉ pair.1.asText ∧ 46 ∉ pair.1.asText) →
    printEntriesEffects dir idx
      = idx.map (fun pair =>
          .writeFile (dir ++ 47 :: (pair.1.asText ++ ascii ".txt"))
            (emitFileContent pair.2)) := by
  intro dir idx hd hds hidx
  unfold printEntriesEffects
  apply List.map_congr_left
  intro pair hpair
  obtain ⟨hne, h47, h46⟩ := hidx pair hpair
  rw [outputPath_eq dir pair.1 hd hds hne h47 h46]

/-- Witness for C9: a realistic index (one `en` entry) is written exactly
at `out/en.txt`. -/
theorem claim_C9_witness :
    (ascii "out" ≠ []) ∧
    printEntriesEffects (ascii "out") [(enCode, [ascii "word"])]
      = [EffectItem.writeFile (ascii "out" ++ 47 :: (enCode.asText ++ ascii ".txt"))
          (emitFileContent [ascii "word"])] :=
  ⟨by decide,
    claim_C9 (ascii "out") [(enCode, [ascii "word"])] (by decide) (by decide) (by decide)⟩

/-- C10: the first file-system effect of every run is the recursive
creation of the output directory, before the table is read and before any
page is scanned; a run that then fails (table load or scan) has performed
exactly that one effect — the directory exists, but holds no new file. -/
theorem claim_C10 : ∀ (parse : Str → List WNode) (tsvPath : Str) (tsvLines : List Str)
    (stream : List (Except DumpError Page)) (dir : Str),
    ((runPipeline parse tsvPath tsvLines stream dir).1.head?
        = some (EffectItem.createDirAll dir))
    ∧ (∀ e, (runPipeline parse tsvPath tsvLines stream dir).2 = some e →
        (runPipeline parse tsvPath tsvLines stream dir).1
          = [EffectItem.createDirAll dir]) := by
  intro parse tsvPath tsvLines stream dir
  rcases htable : fromTsvLines tsvPath tsvLines with e0 | table
  · rw [runPipeline_tableError parse tsvPath tsvLines stream dir e0 htable]
    exact ⟨rfl, fun _ _ => rfl⟩
  · rcases hscan : makeEntryIndex parse table stream ([], []) with e0 | result
    · rw [runPipeline_scanError parse tsvPath tsvLines stream dir table e0 htable hscan]
      exact ⟨rfl, fun _ _ => rfl⟩
    · rw [runPipeline_ok parse tsvPath tsvLines stream dir table result htable hscan]
      exact ⟨rfl, fun e he => absurd he (by simp)⟩

/-- Witness for C10: a run whose table file is malformed reports the
load error with the directory-creation effect already performed. -/
theorem claim_C10_witness :
    (runPipeline exampleParse (ascii "langs.tsv") [ascii "notab"] [] (ascii "out")).2
      = some (Error.invalidNameToCodeFormat (ascii "langs.tsv") 1 (ascii "notab")) ∧
    (runPipeline exampleParse (ascii "langs.tsv") [ascii "notab"] [] (ascii "out")).1
      = [EffectItem.createDirAll (ascii "out")] :=
  ⟨by rfl,
    (claim_C10 exampleParse (ascii "langs.tsv") [ascii "notab"] [] (ascii "out")).2
      (Error.invalidNameToCodeFormat (ascii "langs.tsv") 1 (ascii "notab")) (by rfl)⟩

end Wikt
